import Mathlib

/-!
# Verification of the table-translation pipeline

Shallow embedding of the repository `word-translation3`:

* `core/llm_translator.py` — eligibility filter, translation cache,
  concurrent batch dispatch, final-review pass;
* `tools/translate_pdf_range.py` — page-range detection, filled-rectangle
  extraction, row-background analysis, merged-cell inference, and the
  Word-table materializer.

Python machine floats are embedded as exact rationals (`ℚ`); the float
threshold comparisons of the source involve only small constants, where the
exact and floating comparisons agree.  Python `re` character classes `\d`
and `\s` are embedded as their ASCII parts, which cover the whole input
alphabet of this repository.
-/

namespace WordTranslation

/-! ## String utilities shared by both source files -/

/-- Characters stripped by Python `str.strip()` and matched by `\s`
(ASCII part; non-ASCII Unicode whitespace does not occur in this
repository's inputs). -/
def isPySpace (c : Char) : Bool :=
  c = ' ' || c = '\t' || c = '\n' || c = '\r' || c = '\x0b' || c = '\x0c'

/-- `str.strip()` on the character list. -/
def pyStripList (l : List Char) : List Char :=
  ((l.dropWhile isPySpace).reverse.dropWhile isPySpace).reverse

/-- Python `text.strip()`. -/
def pyStrip (s : String) : String :=
  ⟨pyStripList s.data⟩

/-- `needle` occurs as an initial segment of `hay`. -/
def leadMatch : List Char → List Char → Bool
  | [], _ => true
  | _ :: _, [] => false
  | a :: as, b :: bs => a = b && leadMatch as bs

/-- `needle` occurs as a contiguous sublist of `hay`. -/
def subAt (needle : List Char) : List Char → Bool
  | [] => leadMatch needle []
  | b :: bs => leadMatch needle (b :: bs) || subAt needle bs

/-- Python `needle in hay` on strings (substring containment). -/
def containsSub (needle hay : String) : Bool :=
  subAt needle.data hay.data

/-! ## `core/llm_translator.py` — eligibility filter -/

/-- A character in the CJK unified ideographs range `[一-鿿]`. -/
def isCJK (c : Char) : Bool :=
  0x4e00 ≤ c.toNat && c.toNat ≤ 0x9fff

/-- `LLMTranslator._is_chinese`: the text is empty, has no non-whitespace
characters, or its ratio of CJK characters to non-whitespace characters
exceeds `0.3` (embedded as the exact comparison `10 * cjk > 3 * total`,
which agrees with the source's float comparison on all realistic sizes). -/
def is_chinese (s : String) : Bool :=
  if s = "" then true
  else
    let cjk := s.data.countP isCJK
    let total := (s.data.filter (fun c => !isPySpace c)).length
    if total = 0 then true
    else decide (3 * total < 10 * cjk)

/-- Character class of the pure numeric/unit/symbol pattern
`^[\d\s\.\-\+\/%°℃Ω]+$`. -/
def numericSymbolChar (c : Char) : Bool :=
  c.isDigit || isPySpace c || c = '.' || c = '-' || c = '+' || c = '/' ||
    c = '%' || c = '°' || c = '℃' || c = 'Ω'

/-- `re.match(r'^[\d\s\.\-\+\/%°℃Ω]+$', text)` is truthy.  (The Python `$`
also matches before one trailing newline; since `\n` is itself in the
class, that does not change the matched language.) -/
def matchNumericSymbol (s : String) : Bool :=
  !(s.data.isEmpty) && s.data.all numericSymbolChar

/-- ASCII uppercase letter, the literal class `[A-Z]`. -/
def isAsciiUpper (c : Char) : Bool :=
  'A' ≤ c && c ≤ 'Z'

/-- `re.match(r'^[A-Z]+\s*\d+[\-\d\.]*$', s)` is truthy.  The character
classes of consecutive pieces are disjoint where it matters, so the greedy
left-to-right scan below decides the regex exactly. -/
def matchStandardCode (s : String) : Bool :=
  let (ups, r1) := s.data.span isAsciiUpper
  if ups.isEmpty then false
  else
    let r2 := r1.dropWhile isPySpace
    let (ds, r3) := r2.span Char.isDigit
    if ds.isEmpty then false
    else r3.all (fun c => c = '-' || c.isDigit || c = '.')

/-- `LLMTranslator._should_translate`. -/
def should_translate (s : String) : Bool :=
  if s = "" || (pyStrip s).length < 3 then false
  else if is_chinese s then false
  else if matchNumericSymbol s then false
  else if matchStandardCode (pyStrip s) then false
  else true

/-- The spec's description of ineligibility, stated as the disjunction of
the four skip conditions (spec §4.2); to be compared with the source's
`should_translate`. -/
def notEligibleSpec (s : String) : Prop :=
  s = "" ∨ (pyStrip s).length < 3 ∨ is_chinese s = true ∨
    matchNumericSymbol s = true ∨ matchStandardCode (pyStrip s) = true

/-! ## Translator state and the `translate` path

The upstream Azure call is abstracted as an oracle
`oracle : String → Option String`: `some r` is a successful completion
(already `.strip()`ped), `none` is an exception of the client call.  The
oracle receives the full untrimmed text, exactly as the source interpolates
`text` into the user prompt; the cache is keyed by `text.strip()` as in the
source.  `calls` logs the cache key of every upstream call issued. -/

/-- Mutable translator state: the shared `_cache` dict and a log of issued
upstream calls (by cache key). -/
structure TransState where
  cache : List (String × String)
  calls : List String
  deriving DecidableEq

/-- Lookup in the cache dict (first binding wins; keys are unique by
construction of `assocSet`). -/
def cacheLookup : List (String × String) → String → Option String
  | [], _ => none
  | (k', v') :: rest, k => if k' = k then some v' else cacheLookup rest k

/-- Python dict assignment `d[k] = v`: replace the binding in place if the
key exists, else append. -/
def assocSet : List (String × String) → String → String → List (String × String)
  | [], k, v => [(k, v)]
  | (k', v') :: rest, k, v =>
      if k' = k then (k, v) :: rest else (k', v') :: assocSet rest k v

/-- `LLMTranslator.translate`, sequential semantics: the whole call runs
without interference.  Returns the translated text and the updated state.
Mirrors the source: enabled/eligibility gate, cache check under the lock,
upstream call, store on success, fall back to the input on failure. -/
def translateS (oracle : String → Option String) (enabled : Bool)
    (st : TransState) (t : String) : String × TransState :=
  if enabled && should_translate t then
    let key := pyStrip t
    match cacheLookup st.cache key with
    | some v => (v, st)
    | none =>
        let st1 : TransState := ⟨st.cache, key :: st.calls⟩
        match oracle t with
        | some r => (r, ⟨assocSet st1.cache key r, st1.calls⟩)
        | none => (t, st1)
  else (t, st)

/-- Serial execution of a batch: each `translate` call runs to completion
before the next starts (worker pool of effective size 1). -/
def seqRunTexts (oracle : String → Option String) (enabled : Bool)
    (st : TransState) (texts : List String) : TransState :=
  texts.foldl (fun s t => (translateS oracle enabled s t).2) st

/-! ### Concurrent interleaving machine for `translate_batch`

`translate` holds the `_cache_lock` separately for the cache check and for
the store after the upstream call; the call itself runs unlocked.  Each
worker is therefore a two-step program: an atomic cache-check step
(`ready`) and an atomic call-plus-store step (`needsCall`).  A schedule is
the list of worker indices in the order their atomic steps run. -/

/-- Program counter of one worker of the batch pool. -/
inductive WStatus where
  | ready : WStatus
  | needsCall : WStatus
  | done : String → WStatus
  deriving DecidableEq

/-- Configuration of the worker pool: the submitted texts, each worker's
program counter, and the shared translator state. -/
structure BCfg where
  wtexts : List String
  status : Nat → WStatus
  st : TransState

/-- Pointwise update of a worker's program counter. -/
def setStatus (f : Nat → WStatus) (i : Nat) (w : WStatus) : Nat → WStatus :=
  fun j => if j = i then w else f j

/-- One atomic step of worker `i` (no-op on absent or finished workers). -/
def stepW (oracle : String → Option String) (enabled : Bool)
    (c : BCfg) (i : Nat) : BCfg :=
  match c.wtexts[i]? with
  | none => c
  | some t =>
    match c.status i with
    | .ready =>
        if enabled && should_translate t then
          match cacheLookup c.st.cache (pyStrip t) with
          | some v => { c with status := setStatus c.status i (.done v) }
          | none => { c with status := setStatus c.status i .needsCall }
        else { c with status := setStatus c.status i (.done t) }
    | .needsCall =>
        let key := pyStrip t
        let calls' := key :: c.st.calls
        match oracle t with
        | some r =>
            { c with status := setStatus c.status i (.done r),
                     st := ⟨assocSet c.st.cache key r, calls'⟩ }
        | none =>
            { c with status := setStatus c.status i (.done t),
                     st := ⟨c.st.cache, calls'⟩ }
    | .done _ => c

/-- Run the pool under a schedule (list of worker indices). -/
def runSched (oracle : String → Option String) (enabled : Bool)
    (c : BCfg) (sched : List Nat) : BCfg :=
  sched.foldl (stepW oracle enabled) c

/-- All workers have completed. -/
def allDoneB (c : BCfg) : Bool :=
  (List.range c.wtexts.length).all (fun i =>
    match c.status i with
    | .done _ => true
    | _ => false)

/-- The pre-filter loop of `translate_batch` starting at index `i`:
returns the `results` slots for the remaining texts (original text, or
cache hit for an eligible cached item) together with the
`(original index, text)` pairs submitted to the pool
(`zip indices to_translate`). -/
def prefilterAux (cache : List (String × String)) :
    List String → Nat → List String × List (Nat × String)
  | [], _ => ([], [])
  | t :: ts, i =>
      let (res, pend) := prefilterAux cache ts (i + 1)
      if should_translate t then
        match cacheLookup cache (pyStrip t) with
        | some v => (v :: res, pend)
        | none => (t :: res, (i, t) :: pend)
      else (t :: res, pend)

/-- Write the finished workers' results back into the `results` list by
original index (the source does this in completion order; the write targets
are pairwise distinct original indices, so writing in worker order yields
the same list). -/
def writeBack (status : Nat → WStatus) :
    List (Nat × String) → Nat → List String → List String
  | [], _, res => res
  | (pos, _) :: rest, j, res =>
      match status j with
      | .done v => writeBack status rest (j + 1) (res.set pos v)
      | _ => writeBack status rest (j + 1) res

/-- `LLMTranslator.translate_batch` under an explicit interleaving
schedule: disabled short-circuit, pre-filter, worker pool run, index-stable
write-back.  Returns the results list and the final shared state. -/
def translate_batch_run (oracle : String → Option String) (enabled : Bool)
    (st : TransState) (texts : List String) (sched : List Nat) :
    List String × TransState :=
  if enabled = false then (texts, st)
  else
    let (res0, pend) := prefilterAux st.cache texts 0
    let c0 : BCfg := ⟨pend.map Prod.snd, fun _ => .ready, st⟩
    let c1 := runSched oracle enabled c0 sched
    (writeBack c1.status pend 0 res0, c1.st)

/-- The per-item specification of a translate result: eligible items map to
the oracle's translation (falling back to the input on failure), everything
else passes through. -/
def specOfT (oracle : String → Option String) (t : String) : String :=
  if should_translate t then (oracle t).getD t else t

/-- The initial configuration of the batch pool built by the pre-filter. -/
def batchInitCfg (st : TransState) (texts : List String) : BCfg :=
  ⟨(prefilterAux st.cache texts 0).2.map Prod.snd, fun _ => .ready, st⟩

/-- The `(index, text)` pairs an empty-cache pre-filter submits: eligible
texts with their original indices, starting at `i`. -/
def eligEnum : List String → Nat → List (Nat × String)
  | [], _ => []
  | t :: ts, i =>
      if should_translate t then (i, t) :: eligEnum ts (i + 1)
      else eligEnum ts (i + 1)

/-- Trimmed keys of the eligible texts of a batch (with repetitions). -/
def eligTrimmed (texts : List String) : List String :=
  (texts.filter should_translate).map pyStrip

/-- The oracle treats texts with equal trimmed form identically (the
upstream translation is determined by the trimmed content). -/
def factorsThroughTrim (oracle : String → Option String) : Prop :=
  ∀ a b, pyStrip a = pyStrip b → oracle a = oracle b

/-- Every cache binding records a successful oracle answer for some text
with that trimmed key. -/
def cacheConsistent (oracle : String → Option String)
    (cache : List (String × String)) : Prop :=
  ∀ k v, cacheLookup cache k = some v → ∃ t, pyStrip t = k ∧ oracle t = some v

/-- Pool invariant: the cache is consistent, finished workers carry the
per-item specification of their text, and a worker between the cache check
and the upstream call has an eligible text. -/
def cfgOK (oracle : String → Option String) (c : BCfg) : Prop :=
  cacheConsistent oracle c.st.cache ∧
  (∀ i t r, c.wtexts[i]? = some t → c.status i = .done r →
    r = specOfT oracle t) ∧
  (∀ i t, c.wtexts[i]? = some t → c.status i = .needsCall →
    should_translate t = true)

/-! ## Translator initialization (`LLMTranslator.__init__`) -/

/-- Python truthiness of the `AZURE_OPENAI_API_KEY` value: absent and empty
keys are both falsy. -/
def keyPresent : Option String → Bool
  | none => false
  | some s => !(s = "")

/-- The `enabled` flag after `__init__`: requires the `openai` import to
have succeeded, a truthy API key, and a successful client construction;
any failure leaves the initial `enabled = False` in place. -/
def translatorInitEnabled (hasOpenai : Bool) (apiKey : Option String)
    (clientOk : Bool) : Bool :=
  hasOpenai && keyPresent apiKey && clientOk

/-! ## `LLMTranslator.final_review` -/

/-- The selection `value and not _is_chinese(value) and
_should_translate(value)` of the residual-field scan. -/
def reviewSel (v : String) : Bool :=
  !(v = "") && !(is_chinese v) && should_translate v

/-- Deterministic (serial) semantics of `translate_batch` on a value list:
each slot is the `translate` of its input, threading the shared cache.
The concurrent dispatch produces the same slots for any complete schedule
(see the batch theorems), so this is the batch's observable behavior. -/
def seqBatchVals (oracle : String → Option String) (enabled : Bool) :
    TransState → List String → List String × TransState
  | st, [] => ([], st)
  | st, v :: vs =>
      let p := translateS oracle enabled st v
      let q := seqBatchVals oracle enabled p.2 vs
      (p.1 :: q.1, q.2)

/-- `LLMTranslator.final_review`: disabled short-circuit, residual-field
scan, batch re-translation of the residual values, write-back by key
(`result[key] = translated[i]` is dict assignment, `assocSet`). -/
def final_review (oracle : String → Option String) (enabled : Bool)
    (st : TransState) (m : List (String × String)) :
    List (String × String) × TransState :=
  if enabled = false then (m, st)
  else
    let toReview := m.filter (fun kv => reviewSel kv.2)
    if toReview.isEmpty then (m, st)
    else
      let keys := toReview.map Prod.fst
      let q := seqBatchVals oracle enabled st (toReview.map Prod.snd)
      ((keys.zip q.1).foldl (fun res kv => assocSet res kv.1 kv.2) m, q.2)

/-- Pointwise description of one `final_review` pass: every field whose
value passes the residual scan is replaced by its per-item translation
specification, all other fields are untouched. -/
def pointwiseReview (oracle : String → Option String)
    (m : List (String × String)) : List (String × String) :=
  m.map (fun kv => (kv.1, if reviewSel kv.2 then specOfT oracle kv.2 else kv.2))

/-! ## `find_translation_range` (`tools/translate_pdf_range.py`) -/

def START_MARKER : String := "OVERVIEW OF ENERGY SOURCES AND SAFEGUARDS"

def END_MARKERS : List String :=
  ["ATTACHMENT TO TEST REPORT", "ATTACHMENTS TO TEST REPORT"]

/-- The page's extracted text contains the start marker. -/
def hasStartMarker (text : String) : Bool :=
  containsSub START_MARKER text

/-- The page's extracted text contains some end marker. -/
def hasEndMarker (text : String) : Bool :=
  END_MARKERS.any (fun m => containsSub m text)

/-- The page loop of `find_translation_range`: `i` is the current page
index, `sp` the recorded start page.  On an end-marker page the loop
records that index as the exclusive upper bound and breaks; at the end of
the document the upper bound defaults to the page count `n`, and a missing
start page defaults to `0`. -/
def frLoop (n : Nat) : List String → Nat → Option Nat → Nat × Nat
  | [], _, sp => (sp.getD 0, n)
  | text :: rest, i, sp =>
      let sp' := if sp.isNone && hasStartMarker text then some i else sp
      if hasEndMarker text then (sp'.getD 0, i)
      else frLoop n rest (i + 1) sp'

/-- `find_translation_range` over the pages' extracted texts, returning the
0-indexed half-open page range `[start, end)`. -/
def find_translation_range (pages : List String) : Nat × Nat :=
  frLoop pages.length pages 0 none

/-- Index of the first element satisfying `p` (spec-side helper for the
range-detector characterization). -/
def firstIdx (p : String → Bool) : List String → Option Nat
  | [] => none
  | t :: r => if p t then some 0 else (firstIdx p r).map (· + 1)

/-! ## Geometry: filled rectangles and row backgrounds

Page coordinates and fill intensities are embedded as exact rationals. -/

/-- A pdfplumber cell quad `(x0, top, x1, bottom)`. -/
structure Quad where
  x0 : ℚ
  top : ℚ
  x1 : ℚ
  bottom : ℚ
  deriving DecidableEq

/-- A page rectangle object: bounding box, `fill` flag, and
`non_stroking_color`, which is absent, a scalar gray level, or a component
tuple (the `isinstance` check of the source admits only scalars). -/
structure PdfRect where
  x0 : ℚ
  top : ℚ
  x1 : ℚ
  bottom : ℚ
  fill : Bool
  color : Option (ℚ ⊕ List ℚ)
  deriving DecidableEq

/-- A retained gray background rectangle. -/
structure FilledRect where
  x0 : ℚ
  top : ℚ
  x1 : ℚ
  bottom : ℚ
  color : ℚ
  deriving DecidableEq

/-- `_extract_filled_rects`: keep filled rectangles with a scalar gray
level strictly between `0.7` and `1.0`. -/
def extract_filled_rects (rects : List PdfRect) : List FilledRect :=
  rects.filterMap (fun r =>
    if r.fill then
      match r.color with
      | some (.inl c) =>
          if 7 / 10 < c ∧ c < 1 then some ⟨r.x0, r.top, r.x1, r.bottom, c⟩
          else none
      | _ => none
    else none)

/-- The containment-with-tolerance test of `_analyze_row_backgrounds`
(tolerance 5). -/
def containedWithTol (rect : FilledRect) (q : Quad) : Bool :=
  decide (rect.x0 ≤ q.x0 + 5) && decide (rect.x1 ≥ q.x1 - 5) &&
    decide (rect.top ≤ q.top + 5) && decide (rect.bottom ≥ q.bottom - 5)

/-- `_analyze_row_backgrounds`: for each row index `r` the source takes the
cell at flat index `r * col_count` of the table's cell list (out-of-range
indices yield `False`) and tests containment in some gray rectangle. -/
def analyze_row_backgrounds (cells : List Quad) (rows : List (List String))
    (col_count : Nat) (filled : List FilledRect) : List Bool :=
  (List.range rows.length).map (fun r =>
    match cells[r * col_count]? with
    | none => false
    | some q => filled.any (fun rect => containedWithTol rect q))

/-! ## Merge inference (`_analyze_merged_cells`) -/

/-- Python `round(x, 0)`: round half to even, as an integer. -/
def pyRound (q : ℚ) : Int :=
  let f := ⌊q⌋
  let r := q - f
  if r < 1 / 2 then f
  else if 1 / 2 < r then f + 1
  else if f % 2 = 0 then f else f + 1

/-- Insert into a sorted duplicate-free list. -/
def sortedInsert (x : Int) : List Int → List Int
  | [] => [x]
  | y :: ys =>
      if x < y then x :: y :: ys
      else if x = y then y :: ys
      else y :: sortedInsert x ys

/-- `sorted(set(...))`: the distinct values in ascending order. -/
def dedupSort (l : List Int) : List Int :=
  l.foldr sortedInsert []

/-- `list.index(x)`: index of the first occurrence, `none` when absent
(the source skips the cell on `ValueError`). -/
def idxOf (x : Int) : List Int → Option Nat
  | [] => none
  | y :: ys => if y = x then some 0 else (idxOf x ys).map (· + 1)

/-- A merged-cell descriptor `{'row', 'col', 'colspan', 'rowspan'}`. -/
structure MergeSpan where
  row : Nat
  col : Nat
  colspan : Nat
  rowspan : Nat
  deriving DecidableEq

/-- The distinct rounded x-edges of the cell set. -/
def xEdges (cells : List Quad) : List Int :=
  dedupSort (cells.map (fun c => pyRound c.x0) ++ cells.map (fun c => pyRound c.x1))

/-- The distinct rounded y-edges of the cell set. -/
def yEdges (cells : List Quad) : List Int :=
  dedupSort (cells.map (fun c => pyRound c.top) ++ cells.map (fun c => pyRound c.bottom))

/-- `_analyze_merged_cells`: address every cell in the rounded edge
indices; emit a span when it covers more than one column or row, dropping
spans whose origin row is outside the extracted rows.  Spans are stored
with natural-number extents (a degenerate negative index distance, which
cannot arise from well-formed quads, is truncated to `0` and behaves like
Python's empty `range`). -/
def analyze_merged_cells (cells : List Quad) (rows : List (List String))
    (col_count : Nat) : List MergeSpan :=
  if rows.isEmpty || col_count = 0 then []
  else if cells.isEmpty then []
  else
    let xs := xEdges cells
    let ys := yEdges cells
    if xs.length < 2 || ys.length < 2 then []
    else
      cells.filterMap (fun c =>
        match idxOf (pyRound c.x0) xs, idxOf (pyRound c.x1) xs,
            idxOf (pyRound c.top) ys, idxOf (pyRound c.bottom) ys with
        | some sc, some ec, some sr, some er =>
            let colspan : Int := (ec : Int) - sc
            let rowspan : Int := (er : Int) - sr
            if colspan > 1 ∨ rowspan > 1 then
              if sr < rows.length then
                some ⟨sr, sc, colspan.toNat, rowspan.toNat⟩
              else none
            else none
        | _, _, _, _ => none)

/-! ## Document materializer (`insert_tables_to_template` +
`_apply_merge_to_table`)

The destination table is a grid of `nrows × ncols` cells carrying text,
the `gridSpan` attribute, the `vMerge` attribute, and the shading flag;
the grid is total as a function, with all writes guarded by the source's
bounds checks. -/

/-- The `vMerge` attribute value: `restart` opens a vertical merge, `cont`
is the valueless continuation marker. -/
inductive VMergeV where
  | restart : VMergeV
  | cont : VMergeV
  deriving DecidableEq

/-- One destination table cell. -/
structure DCell where
  text : String
  gridSpan : Option Nat
  vMerge : Option VMergeV
  shaded : Bool
  deriving DecidableEq

/-- A freshly created cell of `doc.add_table`. -/
def DCell.empty : DCell := ⟨"", none, none, false⟩

/-- The destination table grid. -/
structure DocTable where
  nrows : Nat
  ncols : Nat
  cell : Nat → Nat → DCell

/-- Update one grid position. -/
def updateCell (T : DocTable) (r c : Nat) (f : DCell → DCell) : DocTable :=
  { T with cell := fun i j =>
      if i = r then (if j = c then f (T.cell i j) else T.cell i j)
      else T.cell i j }

/-- Boolean membership in a list of grid positions. -/
def memPos (p : Nat × Nat) : List (Nat × Nat) → Bool
  | [] => false
  | q :: qs => if p = q then true else memPos p qs

/-- The `merged_cells` set: every `(row, col)` covered by some span other
than the span's own origin. -/
def mergedCellsList (ms : List MergeSpan) : List (Nat × Nat) :=
  ms.flatMap (fun m =>
    (List.range m.rowspan).flatMap (fun dr =>
      (List.range m.colspan).filterMap (fun dc =>
        if dr > 0 ∨ dc > 0 then some (m.row + dr, m.col + dc) else none)))

/-- Data fill of one row: write each cell's text (positions beyond the
created column count are skipped) and apply the gray shading when the row
is marked. -/
def fillRow (bg : Bool) (r : Nat) : List String → Nat → DocTable → DocTable
  | [], _, T => T
  | txt :: rest, c, T =>
      let T1 :=
        if c < T.ncols then
          updateCell T r c (fun cl =>
            let cl1 := { cl with text := txt }
            if bg then { cl1 with shaded := true } else cl1)
        else T
      fillRow bg r rest (c + 1) T1

/-- Data fill of the whole table, row by row (rows beyond the created row
count are skipped; a missing `row_backgrounds` entry counts as `False`). -/
def fillTable : List (List String) → List Bool → Nat → DocTable → DocTable
  | [], _, _, T => T
  | row :: rest, bgs, r, T =>
      let T1 := if r < T.nrows then fillRow (bgs.getD r false) r row 0 T else T
      fillTable rest bgs (r + 1) T1

/-- One iteration of the per-span loop of `_apply_merge_to_table`: visit
row `m.row + dr` at the span's starting column; clear the cell's content
when it is a covered cell, set `gridSpan` for a horizontal merge, and set
`vMerge` to `restart` on the first row and to the valueless continuation
on subsequent rows. -/
def mergeStep (mc : List (Nat × Nat)) (m : MergeSpan) (T : DocTable)
    (dr : Nat) : DocTable :=
  if T.nrows ≤ m.row + dr then T
  else if T.ncols ≤ m.col then T
  else
    updateCell T (m.row + dr) m.col (fun cl =>
      let cl1 :=
        if memPos (m.row + dr, m.col) mc then { cl with text := "" } else cl
      let cl2 :=
        if 1 < m.colspan then { cl1 with gridSpan := some m.colspan } else cl1
      if 1 < m.rowspan then
        { cl2 with vMerge := some (if dr = 0 then .restart else .cont) }
      else cl2)

/-- The per-span loop of `_apply_merge_to_table`. -/
def applyMergeOne (mc : List (Nat × Nat)) (T : DocTable)
    (m : MergeSpan) : DocTable :=
  (List.range m.rowspan).foldl (mergeStep mc m) T

/-- `_apply_merge_to_table` over the whole merge list. -/
def apply_merge_to_table (T : DocTable) (ms : List MergeSpan)
    (mc : List (Nat × Nat)) : DocTable :=
  ms.foldl (applyMergeOne mc) T

/-- The per-table body of `insert_tables_to_template`: create the
`len(rows) × col_count` grid, build the covered-cell set, populate the
data (content before merges), then apply the merge attributes. -/
def insert_one_table (rows : List (List String)) (col_count : Nat)
    (ms : List MergeSpan) (bgs : List Bool) : DocTable :=
  let T0 : DocTable := ⟨rows.length, col_count, fun _ _ => DCell.empty⟩
  let mc := mergedCellsList ms
  let T1 := fillTable rows bgs 0 T0
  apply_merge_to_table T1 ms mc

/-- The grid region covered by a span (origin included). -/
def covers (m : MergeSpan) (r c : Nat) : Prop :=
  m.row ≤ r ∧ r < m.row + m.rowspan ∧ m.col ≤ c ∧ c < m.col + m.colspan

/-- Two spans cover disjoint rectangles. -/
def spansDisjoint (m1 m2 : MergeSpan) : Prop :=
  m1.row + m1.rowspan ≤ m2.row ∨ m2.row + m2.rowspan ≤ m1.row ∨
    m1.col + m1.colspan ≤ m2.col ∨ m2.col + m2.colspan ≤ m1.col

/-! ## Concrete instances used by counterexamples and witnesses -/

/-- Synthetic table of the spec's merge example: a cell spanning 3 columns
and 2 rows at origin (0,0), inside a 4-column, 3-row grid whose remaining
cells are unmerged. -/
def synthCells : List Quad :=
  [⟨0, 0, 30, 20⟩,
   ⟨30, 0, 40, 10⟩, ⟨30, 10, 40, 20⟩,
   ⟨0, 20, 10, 30⟩, ⟨10, 20, 20, 30⟩, ⟨20, 20, 30, 30⟩, ⟨30, 20, 40, 30⟩]

/-- Extracted text rows of the synthetic table. -/
def synthRows : List (List String) :=
  [["merged", "", "", "h"], ["", "", "", "i"], ["a", "b", "c", "d"]]

/-- Cell quads of a 2-row, 2-column table whose first row is one cell
merged across both columns: pdfplumber reports 3 cells, so the flat list
is not row-major with stride `col_count`. -/
def cexCells : List Quad :=
  [⟨0, 0, 100, 10⟩, ⟨0, 10, 50, 20⟩, ⟨50, 10, 100, 20⟩]

/-- A filled gray rectangle covering (with tolerance) exactly the leading
cell of row 1 of `cexCells`. -/
def cexRects : List PdfRect :=
  [⟨-1, 9, 51, 21, true, some (.inl (9 / 10))⟩]

/-- Oracle whose successful outputs are still eligible for translation
(an upstream that answers in the source script). -/
def reviewOracle : String → Option String := fun s =>
  if s = "HELLO WORLD" then some "HELLO AGAIN"
  else if s = "HELLO AGAIN" then some "THIRD THING" else none

/-- A well-behaved oracle: depends only on the trimmed text, and its
successful outputs are in the target script (no longer eligible). -/
def cleanOracle : String → Option String := fun s =>
  if pyStrip s = "HELLO WORLD" then some "你好世界" else none

/-! # Theorems -/

/-! ## Claim C3 — the eligibility predicate -/

/-- Claim C3, corrected: `should_translate` returns `false` exactly on the
four skip conditions, and the spec's example verdicts hold except for
`"220V ±10%"`, which is eligible: the letter `V` and the sign `±` are
outside the numeric/unit/symbol character class, and the text does not
start with an uppercase run followed by digits, so neither pattern
matches. -/
theorem C3_eligibility_characterization :
    (∀ s, should_translate s = false ↔ notEligibleSpec s) ∧
    should_translate "220V ±10%" = true ∧
    should_translate "IEC 62368-1" = false ∧
    should_translate "通過" = false ∧
    should_translate "PASS" = true := by
  refine ⟨fun s => ?_, by decide, by decide, by decide, by decide⟩
  by_cases h1 : s = ""
  · simp [should_translate, notEligibleSpec, h1]
  · by_cases h2 : (pyStrip s).length < 3
    · simp [should_translate, notEligibleSpec, h1, h2]
    · by_cases h3 : is_chinese s
      · simp [should_translate, notEligibleSpec, h1, h2, h3]
      · by_cases h4 : matchNumericSymbol s
        · simp [should_translate, notEligibleSpec, h1, h2, h3, h4]
        · by_cases h5 : matchStandardCode (pyStrip s)
          · simp [should_translate, notEligibleSpec, h1, h2, h3, h4, h5]
          · simp [should_translate, notEligibleSpec, h1, h2, h3, h4, h5]

/-- Claim C3 fails as stated: the code deems `"220V ±10%"` eligible,
while the claim says it is not eligible. -/
theorem C3_counterexample : should_translate "220V ±10%" = true := by decide

/-! ## Claim C2 — the range detector -/

/-- Shifting an index-offset through `firstIdx`'s successor map. -/
lemma map_add_succ (o : Option Nat) (i d : Nat) :
    ((o.map (· + 1)).map (fun t => i + t)).getD d =
      ((o.map (fun t => i + 1 + t)).getD d) := by
  cases o with
  | none => simp
  | some x => simp; omega

/-- The upper bound computed by the page loop: index of the first
end-marker page among the remaining pages, defaulting to `n`, independent
of the recorded start page. -/
lemma frLoop_snd (n : Nat) :
    ∀ (rest : List String) (i : Nat) (sp : Option Nat),
      (frLoop n rest i sp).2 =
        ((firstIdx hasEndMarker rest).map (fun j => i + j)).getD n := by
  intro rest
  induction rest with
  | nil => intro i sp; simp [frLoop, firstIdx]
  | cons t rest ih =>
      intro i sp
      by_cases he : hasEndMarker t
      · simp [frLoop, firstIdx, he]
      · simp only [frLoop, he, Bool.false_eq_true, if_false, ih, firstIdx]
        rw [map_add_succ]

/-- Once the start page is recorded, the loop reports it unchanged. -/
lemma frLoop_fst_some (n : Nat) :
    ∀ (rest : List String) (i s : Nat),
      (frLoop n rest i (some s)).1 = s := by
  intro rest
  induction rest with
  | nil => intro i s; simp [frLoop]
  | cons t rest ih =>
      intro i s
      by_cases he : hasEndMarker t
      · simp [frLoop, he]
      · simp [frLoop, he, ih]

/-- With no start page recorded yet, the loop reports the first
start-marker page among the pages scanned up to and including the stopping
page (the first end-marker page, or all pages), defaulting to 0. -/
lemma frLoop_fst_none (n : Nat) :
    ∀ (rest : List String) (i : Nat),
      (frLoop n rest i none).1 =
        ((firstIdx hasStartMarker
            (rest.take ((firstIdx hasEndMarker rest).getD rest.length + 1))).map
          (fun t => i + t)).getD 0 := by
  intro rest
  induction rest with
  | nil => intro i; simp [frLoop, firstIdx]
  | cons t rest ih =>
      intro i
      by_cases he : hasEndMarker t
      · by_cases hs : hasStartMarker t <;>
          simp [frLoop, firstIdx, he, hs, List.take_succ_cons]
      · by_cases hs : hasStartMarker t
        · simp only [frLoop, Option.isNone_none, Bool.true_and, hs, if_true,
            he, Bool.false_eq_true, if_false]
          rw [frLoop_fst_some]
          cases hj : firstIdx hasEndMarker rest <;>
            simp [firstIdx, he, hs, hj, List.take_succ_cons]
        · simp only [frLoop, Option.isNone_none, Bool.true_and, hs,
            Bool.false_eq_true, if_false, he, ih]
          have hfg : ((fun t => i + t) ∘ fun x => x + 1) =
              (fun t : Nat => i + 1 + t) := by
            funext x
            simp [Function.comp]
            omega
          cases hj : firstIdx hasEndMarker rest <;>
            · simp [firstIdx, he, hs, hj, List.take_succ_cons]
              rw [hfg]

/-- Claim C2, corrected: the upper bound is the index of the first page
containing any end marker over the *whole* document — end markers on pages
before the first start-marker page are *not* ignored, they stop the scan —
defaulting to the page count; the lower bound is the index of the first
start-marker page among the pages scanned up to and including the stopping
page, defaulting to 0.  The spec's two examples ((1,3) and (0, pageCount))
still hold under this description. -/
theorem C2_range_detector (pages : List String) :
    find_translation_range pages =
      ((firstIdx hasStartMarker
          (pages.take ((firstIdx hasEndMarker pages).getD pages.length + 1))).getD 0,
        (firstIdx hasEndMarker pages).getD pages.length) := by
  have h1 := frLoop_fst_none pages.length pages 0
  have h2 := frLoop_snd pages.length pages 0 none
  rw [find_translation_range, Prod.ext_iff]
  refine ⟨?_, ?_⟩
  · rw [h1]
    cases ht : firstIdx hasStartMarker
        (pages.take ((firstIdx hasEndMarker pages).getD pages.length + 1)) <;>
      simp [ht]
  · rw [h2]
    cases hj : firstIdx hasEndMarker pages <;> simp [hj]

/-- Claim C2 fails as stated: with an end marker on page 0 and the start
marker on page 1, the claim says the early end marker is ignored and the
result is (1, 2); the code stops at page 0 and returns (0, 0). -/
theorem C2_counterexample :
    find_translation_range
        ["ATTACHMENT TO TEST REPORT",
         "OVERVIEW OF ENERGY SOURCES AND SAFEGUARDS"] = (0, 0) ∧
      ((0, 0) : Nat × Nat) ≠ (1, 2) := ⟨by decide, by decide⟩

/-! ## Claim C10 — initialization failure degrades to identity -/

/-- Claim C10: when initialization fails (missing `openai` import, absent
or empty API key, or client construction failure), the `enabled` flag is
`false` and, for any oracle and any state, `translate`, `translate_batch`
(under any schedule) and `final_review` all return their input unchanged
with the state untouched. -/
theorem C10_disabled_identity (oracle : String → Option String)
    (hasOpenai : Bool) (apiKey : Option String) (clientOk : Bool)
    (h : hasOpenai = false ∨ keyPresent apiKey = false ∨ clientOk = false) :
    translatorInitEnabled hasOpenai apiKey clientOk = false ∧
    (∀ st t,
      translateS oracle (translatorInitEnabled hasOpenai apiKey clientOk) st t =
        (t, st)) ∧
    (∀ st texts sched,
      translate_batch_run oracle (translatorInitEnabled hasOpenai apiKey clientOk)
          st texts sched = (texts, st)) ∧
    (∀ st m,
      final_review oracle (translatorInitEnabled hasOpenai apiKey clientOk)
          st m = (m, st)) := by
  have he : translatorInitEnabled hasOpenai apiKey clientOk = false := by
    rcases h with h | h | h <;> simp [translatorInitEnabled, h]
  rw [he]
  refine ⟨rfl, ?_, ?_, ?_⟩
  · intro st t
    simp [translateS]
  · intro st texts sched
    simp [translate_batch_run]
  · intro st m
    simp [final_review]

/-- Witness for C10 at a concrete failed initialization (missing API
key). -/
theorem C10_witness :
    translatorInitEnabled true none true = false ∧
    translateS (fun _ => none) (translatorInitEnabled true none true)
        ⟨[], []⟩ "PASS" = ("PASS", ⟨[], []⟩) := by
  have h := C10_disabled_identity (fun _ => none) true none true
    (Or.inr (Or.inl rfl))
  exact ⟨h.1, h.2.1 ⟨[], []⟩ "PASS"⟩

/-! ## Claim C4 — at most one upstream call per trimmed text -/

/-- Claim C4 fails as stated: two workers translating the same (eligible,
uncached) text, interleaved so that both pass the cache check before
either stores, each issue an upstream call — 2 calls for 1 distinct
trimmed string.  The lock only makes the check and the store individually
atomic; it is not held across the upstream call. -/
theorem C4_counterexample :
    1 < ((runSched (fun _ => some "你好") true
        ⟨["hello world", "hello world"], fun _ => .ready, ⟨[], []⟩⟩
        [0, 1, 0, 1]).st.calls.count "hello world") := by decide

/-- Looking up a key after a dict assignment. -/
lemma cacheLookup_assocSet (cache : List (String × String)) (k v k' : String) :
    cacheLookup (assocSet cache k v) k' =
      if k = k' then some v else cacheLookup cache k' := by
  induction cache with
  | nil => simp [assocSet, cacheLookup]
  | cons p rest ih =>
      obtain ⟨k0, v0⟩ := p
      by_cases h0 : k0 = k
      · subst h0
        by_cases hk : k0 = k' <;> simp [assocSet, cacheLookup, hk]
      · by_cases hk : k0 = k'
        · subst hk
          have : ¬k = k0 := fun h => h0 h.symm
          simp [assocSet, cacheLookup, h0, this]
        · simp [assocSet, cacheLookup, h0, hk, ih]

/-- State evolution of a serial batch: each key's call count grows by one
exactly when the key is an eligible trimmed key of the batch that was not
cached at the start, and the key ends up cached iff it was cached or is an
eligible trimmed key (assuming every upstream call succeeds). -/
lemma seqRun_state (oracle : String → Option String)
    (hT : ∀ t, (oracle t).isSome = true) :
    ∀ (texts : List String) (st : TransState) (k : String),
      ((seqRunTexts oracle true st texts).calls.count k =
        st.calls.count k +
          (if k ∈ eligTrimmed texts ∧ cacheLookup st.cache k = none then 1
           else 0)) ∧
      ((cacheLookup (seqRunTexts oracle true st texts).cache k).isSome =
        ((cacheLookup st.cache k).isSome || decide (k ∈ eligTrimmed texts))) := by
  intro texts
  induction texts with
  | nil => intro st k; simp [seqRunTexts, eligTrimmed]
  | cons t ts ih =>
      intro st k
      have hstep : seqRunTexts oracle true st (t :: ts) =
          seqRunTexts oracle true (translateS oracle true st t).2 ts := rfl
      by_cases hel : should_translate t
      · have hmem : eligTrimmed (t :: ts) = pyStrip t :: eligTrimmed ts := by
          simp [eligTrimmed, List.filter_cons, hel]
        cases hcl : cacheLookup st.cache (pyStrip t) with
        | some v =>
            have hst1 : (translateS oracle true st t).2 = st := by
              simp [translateS, hel, hcl]
            rw [hstep, hst1, hmem]
            obtain ⟨ih1, ih2⟩ := ih st k
            by_cases hk : k = pyStrip t
            · subst hk
              constructor
              · rw [ih1, hcl]
                simp
              · rw [ih2, hcl]
                simp
            · have hmc : (k ∈ pyStrip t :: eligTrimmed ts) ↔ k ∈ eligTrimmed ts := by
                simp [List.mem_cons, hk]
              constructor
              · rw [ih1]
                congr 1
                simp [hmc]
              · rw [ih2]
                simp [hmc]
        | none =>
            cases ho : oracle t with
            | none =>
                exfalso
                have := hT t
                rw [ho] at this
                simp at this
            | some r =>
                have hst1 : (translateS oracle true st t).2 =
                    ⟨assocSet st.cache (pyStrip t) r, pyStrip t :: st.calls⟩ := by
                  simp [translateS, hel, hcl, ho]
                rw [hstep, hst1, hmem]
                obtain ⟨ih1, ih2⟩ :=
                  ih ⟨assocSet st.cache (pyStrip t) r, pyStrip t :: st.calls⟩ k
                by_cases hk : k = pyStrip t
                · subst hk
                  constructor
                  · rw [ih1]
                    simp [cacheLookup_assocSet, List.count_cons, hcl]
                  · rw [ih2]
                    simp [cacheLookup_assocSet]
                · have hne : ¬pyStrip t = k := fun h => hk h.symm
                  constructor
                  · rw [ih1]
                    simp only [cacheLookup_assocSet, hne, if_false,
                      List.count_cons]
                    have : (k == pyStrip t) = false := by
                      simp [hk]
                    simp [this, List.mem_cons, hk, hne]
                  · rw [ih2]
                    simp [cacheLookup_assocSet, hne, List.mem_cons, hk]
      · have hmem : eligTrimmed (t :: ts) = eligTrimmed ts := by
          simp [eligTrimmed, List.filter_cons, hel]
        have hst1 : (translateS oracle true st t).2 = st := by
          simp [translateS, hel]
        rw [hstep, hst1, hmem]
        exact ih st k

/-- Claim C4, corrected: the cache lock makes the cache check and the
cache store individually atomic, but it is not held across the upstream
call, so concurrently interleaved workers can issue duplicate calls for
one trimmed text (see the counterexample).  Under serial execution the
claimed bound holds exactly: starting from an empty cache with an upstream
that answers every call, a batch issues exactly one upstream call per
distinct eligible trimmed text and none for any other key. -/
theorem C4_cache_serial (oracle : String → Option String) (texts : List String)
    (hT : ∀ t, (oracle t).isSome = true) (k : String) :
    (seqRunTexts oracle true ⟨[], []⟩ texts).calls.count k =
      if k ∈ eligTrimmed texts then 1 else 0 := by
  have h := (seqRun_state oracle hT texts ⟨[], []⟩ k).1
  simpa [cacheLookup] using h

/-- Witness for C4 at a concrete batch: two copies of one eligible text
issue exactly one upstream call when run serially. -/
theorem C4_witness :
    (seqRunTexts (fun _ => some "你好") true ⟨[], []⟩
        ["hello world", "hello world"]).calls.count "hello world" = 1 := by
  have h := C4_cache_serial (fun _ => some "你好")
    ["hello world", "hello world"] (fun _ => rfl) "hello world"
  rw [h]
  decide

/-! ## Claim C5 — batch slot mapping -/

/-- A pool step never changes the submitted texts. -/
lemma stepW_wtexts (oracle : String → Option String) (en : Bool) (c : BCfg)
    (i : Nat) : (stepW oracle en c i).wtexts = c.wtexts := by
  unfold stepW
  repeat' split
  all_goals rfl

/-- A schedule never changes the submitted texts. -/
lemma runSched_wtexts (oracle : String → Option String) (en : Bool)
    (sched : List Nat) :
    ∀ c : BCfg, (runSched oracle en c sched).wtexts = c.wtexts := by
  induction sched with
  | nil => intro c; rfl
  | cons i sched ih =>
      intro c
      have : runSched oracle en c (i :: sched) =
          runSched oracle en (stepW oracle en c i) sched := rfl
      rw [this, ih, stepW_wtexts]

/-- One pool step preserves the pool invariant (for an enabled engine and
a trim-respecting oracle). -/
lemma cfgOK_statusUpd (oracle : String → Option String) (c : BCfg) (i : Nat)
    (t : String) (w : WStatus) (hti : c.wtexts[i]? = some t)
    (h : cfgOK oracle c)
    (hw1 : ∀ r, w = .done r → r = specOfT oracle t)
    (hw2 : w = .needsCall → should_translate t = true) :
    cfgOK oracle ⟨c.wtexts, setStatus c.status i w, c.st⟩ := by
  obtain ⟨hcache, hdone, hcall⟩ := h
  refine ⟨hcache, ?_, ?_⟩
  · intro j u r hj hs
    simp only [setStatus] at hs
    by_cases hij : j = i
    · rw [if_pos hij] at hs
      rw [hij, hti] at hj
      cases hj
      exact hw1 r hs
    · rw [if_neg hij] at hs
      exact hdone j u r hj hs
  · intro j u hj hs
    simp only [setStatus] at hs
    by_cases hij : j = i
    · rw [if_pos hij] at hs
      rw [hij, hti] at hj
      cases hj
      exact hw2 hs
    · rw [if_neg hij] at hs
      exact hcall j u hj hs

/-- One pool step preserves the pool invariant (for an enabled engine and
a trim-respecting oracle). -/
lemma stepW_cfgOK (oracle : String → Option String)
    (hF : factorsThroughTrim oracle) (c : BCfg) (i : Nat)
    (h : cfgOK oracle c) : cfgOK oracle (stepW oracle true c i) := by
  cases hti : c.wtexts[i]? with
  | none =>
      have hstep : stepW oracle true c i = c := by
        unfold stepW
        rw [hti]
      rw [hstep]
      exact h
  | some t =>
      cases hsi : c.status i with
      | ready =>
          by_cases hel : should_translate t = true
          · cases hcl : cacheLookup c.st.cache (pyStrip t) with
            | some v =>
                have hstep : stepW oracle true c i =
                    ⟨c.wtexts, setStatus c.status i (.done v), c.st⟩ := by
                  unfold stepW
                  rw [hti, hsi]
                  simp [hel, hcl]
                rw [hstep]
                refine cfgOK_statusUpd oracle c i t _ hti h ?_ (by intro hw; cases hw)
                intro r hr
                cases hr
                obtain ⟨u', hu1, hu2⟩ := h.1 _ _ hcl
                have hou : oracle t = oracle u' := hF t u' (by rw [hu1])
                simp [specOfT, hel, hou, hu2]
            | none =>
                have hstep : stepW oracle true c i =
                    ⟨c.wtexts, setStatus c.status i .needsCall, c.st⟩ := by
                  unfold stepW
                  rw [hti, hsi]
                  simp [hel, hcl]
                rw [hstep]
                refine cfgOK_statusUpd oracle c i t _ hti h ?_ (fun _ => hel)
                intro r hr
                cases hr
          · have hstep : stepW oracle true c i =
                ⟨c.wtexts, setStatus c.status i (.done t), c.st⟩ := by
              unfold stepW
              rw [hti, hsi]
              simp [hel]
            rw [hstep]
            refine cfgOK_statusUpd oracle c i t _ hti h ?_ (by intro hw; cases hw)
            intro r hr
            cases hr
            simp [specOfT, hel]
      | needsCall =>
          have hel : should_translate t = true := h.2.2 i t hti hsi
          cases ho : oracle t with
          | some r =>
              have hstep : stepW oracle true c i =
                  ⟨c.wtexts, setStatus c.status i (.done r),
                    ⟨assocSet c.st.cache (pyStrip t) r,
                      pyStrip t :: c.st.calls⟩⟩ := by
                unfold stepW
                rw [hti, hsi]
                simp [ho]
              rw [hstep]
              have hmid : cfgOK oracle
                  ⟨c.wtexts, c.status,
                    ⟨assocSet c.st.cache (pyStrip t) r,
                      pyStrip t :: c.st.calls⟩⟩ := by
                refine ⟨?_, h.2.1, h.2.2⟩
                intro k v hk
                simp only at hk
                rw [cacheLookup_assocSet] at hk
                by_cases hkey : pyStrip t = k
                · rw [if_pos hkey] at hk
                  cases hk
                  exact ⟨t, hkey, ho⟩
                · rw [if_neg hkey] at hk
                  exact h.1 k v hk
              refine cfgOK_statusUpd oracle
                ⟨c.wtexts, c.status,
                  ⟨assocSet c.st.cache (pyStrip t) r, pyStrip t :: c.st.calls⟩⟩
                i t _ hti hmid ?_ (by intro hw; cases hw)
              intro r' hr
              cases hr
              simp [specOfT, hel, ho]
          | none =>
              have hstep : stepW oracle true c i =
                  ⟨c.wtexts, setStatus c.status i (.done t),
                    ⟨c.st.cache, pyStrip t :: c.st.calls⟩⟩ := by
                unfold stepW
                rw [hti, hsi]
                simp [ho]
              rw [hstep]
              have hmid : cfgOK oracle
                  ⟨c.wtexts, c.status, ⟨c.st.cache, pyStrip t :: c.st.calls⟩⟩ :=
                ⟨h.1, h.2.1, h.2.2⟩
              refine cfgOK_statusUpd oracle
                ⟨c.wtexts, c.status, ⟨c.st.cache, pyStrip t :: c.st.calls⟩⟩
                i t _ hti hmid ?_ (by intro hw; cases hw)
              intro r' hr
              cases hr
              simp [specOfT, hel, ho]
      | done r =>
          have hstep : stepW oracle true c i = c := by
            unfold stepW
            rw [hti, hsi]
          rw [hstep]
          exact h

/-- A whole schedule preserves the pool invariant. -/
lemma runSched_cfgOK (oracle : String → Option String)
    (hF : factorsThroughTrim oracle) (sched : List Nat) :
    ∀ c : BCfg, cfgOK oracle c → cfgOK oracle (runSched oracle true c sched) := by
  induction sched with
  | nil => intro c h; exact h
  | cons i sched ih =>
      intro c h
      exact ih _ (stepW_cfgOK oracle hF c i h)

/-- With an empty cache the pre-filter keeps all slots at their input and
submits exactly the eligible texts with their indices. -/
lemma prefilterAux_nil : ∀ (ts : List String) (i : Nat),
    prefilterAux [] ts i = (ts, eligEnum ts i) := by
  intro ts
  induction ts with
  | nil => intro i; rfl
  | cons t ts ih =>
      intro i
      by_cases hel : should_translate t <;>
        simp [prefilterAux, eligEnum, hel, cacheLookup, ih]

/-- `allDoneB` unpacked. -/
lemma allDone_status (c : BCfg) (h : allDoneB c = true) :
    ∀ i, i < c.wtexts.length → ∃ r, c.status i = .done r := by
  intro i hi
  have h2 := (List.all_eq_true.mp h) i (List.mem_range.mpr hi)
  cases hs : c.status i with
  | done r => exact ⟨r, rfl⟩
  | ready => rw [hs] at h2; simp at h2
  | needsCall => rw [hs] at h2; simp at h2

/-- When every worker has finished on the specified value of its text, the
write-back is a fold of positional writes of those values. -/
lemma writeBack_spec (oracle : String → Option String) :
    ∀ (pend : List (Nat × String)) (status : Nat → WStatus) (j : Nat)
      (res : List String),
      (∀ idx p, pend[idx]? = some p →
        status (j + idx) = .done (specOfT oracle p.2)) →
      writeBack status pend j res =
        (pend.map (fun p => (p.1, specOfT oracle p.2))).foldl
          (fun r q => r.set q.1 q.2) res := by
  intro pend
  induction pend with
  | nil => intro status j res _; rfl
  | cons p rest ih =>
      intro status j res h
      obtain ⟨pos, txt⟩ := p
      have h0 := h 0 (pos, txt) (by simp)
      simp only [Nat.add_zero] at h0
      simp only [writeBack, h0, List.map_cons, List.foldl_cons]
      exact ih status (j + 1) (res.set pos (specOfT oracle txt))
        (fun idx q hq => by
          have h3 := h (idx + 1) q (by simpa using hq)
          have h4 : j + (idx + 1) = j + 1 + idx := by omega
          rwa [h4] at h3)

/-- Setting the element just past a prefix. -/
lemma set_append_cons (pre : List String) (x v : String) (ts : List String) :
    (pre ++ x :: ts).set pre.length v = pre ++ v :: ts := by
  induction pre with
  | nil => rfl
  | cons p pre ih => simp [List.set, ih]

/-- Folding the positional writes of the eligible slots' specified values
over the input list rewrites exactly the eligible slots, i.e. produces the
pointwise specification of the whole batch. -/
lemma wb_fold (oracle : String → Option String) :
    ∀ (ts pre : List String),
      ((eligEnum ts pre.length).map (fun p => (p.1, specOfT oracle p.2))).foldl
          (fun r q => r.set q.1 q.2) (pre ++ ts) =
        pre ++ ts.map (specOfT oracle) := by
  intro ts
  induction ts with
  | nil => intro pre; simp [eligEnum]
  | cons t ts ih =>
      intro pre
      by_cases hel : should_translate t
      · simp only [eligEnum, hel, if_true, List.map_cons, List.foldl_cons]
        rw [set_append_cons]
        have h2 := ih (pre ++ [specOfT oracle t])
        simp only [List.length_append, List.length_cons, List.length_nil,
          List.append_assoc, List.cons_append, List.nil_append] at h2
        simpa [List.map_cons] using h2
      · simp only [eligEnum, hel, Bool.false_eq_true, if_false]
        have hspec : specOfT oracle t = t := by simp [specOfT, hel]
        have h2 := ih (pre ++ [t])
        simp only [List.length_append, List.length_cons, List.length_nil,
          List.append_assoc, List.cons_append, List.nil_append] at h2
        simpa [List.map_cons, hspec] using h2

/-- Claim C5, corrected: provided the upstream treats texts with equal
trimmed form identically (`factorsThroughTrim`), every complete schedule
of the worker pool produces the same result list, in which slot `i` is
determined only by `texts[i]`: the upstream translation of `texts[i]` when
it is eligible and the call succeeds, and `texts[i]` unchanged otherwise.
Without that proviso a slot may receive the cached translation of a
different, trim-equal input depending on completion order (see the
counterexample). -/
theorem C5_slot_mapping (oracle : String → Option String)
    (hF : factorsThroughTrim oracle) (texts : List String) (sched : List Nat)
    (hDone : allDoneB
      (runSched oracle true (batchInitCfg ⟨[], []⟩ texts) sched) = true) :
    (translate_batch_run oracle true ⟨[], []⟩ texts sched).1 =
      texts.map (specOfT oracle) := by
  have hpf : prefilterAux ([] : List (String × String)) texts 0 =
      (texts, eligEnum texts 0) := prefilterAux_nil texts 0
  set c0 : BCfg := batchInitCfg ⟨[], []⟩ texts with hc0
  have hw0 : c0.wtexts = (eligEnum texts 0).map Prod.snd := by
    simp [hc0, batchInitCfg, hpf]
  have hOK0 : cfgOK oracle c0 := by
    refine ⟨?_, ?_, ?_⟩
    · intro k v hk
      simp [hc0, batchInitCfg, cacheLookup] at hk
    · intro j u r _ hs
      simp [hc0, batchInitCfg] at hs
    · intro j u _ hs
      simp [hc0, batchInitCfg] at hs
  set c1 := runSched oracle true c0 sched with hc1
  have hOK1 : cfgOK oracle c1 := runSched_cfgOK oracle hF sched c0 hOK0
  have hw1 : c1.wtexts = c0.wtexts := runSched_wtexts oracle true sched c0
  have hstat : ∀ idx p, (eligEnum texts 0)[idx]? = some p →
      c1.status (0 + idx) = .done (specOfT oracle p.2) := by
    intro idx p hp
    have hlen : idx < (eligEnum texts 0).length :=
      (List.getElem?_eq_some.mp hp).1
    have htx : c1.wtexts[idx]? = some p.2 := by
      rw [hw1, hw0, List.getElem?_map, hp]
      rfl
    have hlt : idx < c1.wtexts.length := by
      rw [hw1, hw0, List.length_map]
      exact hlen
    obtain ⟨r, hr⟩ := allDone_status c1 hDone idx hlt
    have := hOK1.2.1 idx p.2 r htx hr
    rw [Nat.zero_add, hr, this]
  have hwb := writeBack_spec oracle (eligEnum texts 0) c1.status 0 texts hstat
  have hfold := wb_fold oracle texts []
  simp only [List.length_nil, List.nil_append] at hfold
  show (translate_batch_run oracle true ⟨[], []⟩ texts sched).1 =
    texts.map (specOfT oracle)
  rw [translate_batch_run]
  simp only [if_neg (by simp : ¬(true = false)), hpf]
  rw [show (runSched oracle true ⟨(eligEnum texts 0).map Prod.snd,
      fun _ => WStatus.ready, ⟨[], []⟩⟩ sched) = c1 from by
    rw [hc1, hc0, batchInitCfg, hpf]]
  rw [hwb, hfold]

/-- Witness for C5 at a concrete complete schedule. -/
theorem C5_witness :
    (translate_batch_run (fun _ => some "合格") true ⟨[], []⟩
        ["PASS"] [0, 0]).1 = ["合格"] := by
  have h := C5_slot_mapping (fun _ => some "合格") (fun a b _ => rfl)
    ["PASS"] [0, 0] (by decide)
  rw [h]
  decide

/-- Claim C5 fails as stated: with two eligible texts whose trimmed forms
coincide (`"PASS "` and `"PASS"`) and an oracle distinguishing them, the
result of a slot depends on worker completion order: the later worker hits
the cache entry stored by the earlier one, so the batch returns
`["X", "X"]` under one schedule and `["Y", "Y"]` under another. -/
theorem C5_counterexample :
    (translate_batch_run
        (fun t => if t = "PASS " then some "X"
          else if t = "PASS" then some "Y" else none)
        true ⟨[], []⟩ ["PASS ", "PASS"] [0, 0, 1, 1]).1 = ["X", "X"] ∧
    (translate_batch_run
        (fun t => if t = "PASS " then some "X"
          else if t = "PASS" then some "Y" else none)
        true ⟨[], []⟩ ["PASS ", "PASS"] [1, 1, 0, 0]).1 = ["Y", "Y"] ∧
    (["X", "X"] : List String) ≠ ["Y", "Y"] :=
  ⟨by decide, by decide, by decide⟩

/-! ## Claim C9 — final-review idempotence -/

/-- Claim C9 fails as stated: with an upstream whose successful answer is
itself still eligible for translation, the second `final_review` pass
re-translates the field and changes the map again
(`"HELLO WORLD" ↦ "HELLO AGAIN" ↦ "THIRD THING"`). -/
theorem C9_counterexample :
    (final_review reviewOracle true
        (final_review reviewOracle true ⟨[], []⟩ [("f1", "HELLO WORLD")]).2
        (final_review reviewOracle true ⟨[], []⟩ [("f1", "HELLO WORLD")]).1).1 ≠
      (final_review reviewOracle true ⟨[], []⟩ [("f1", "HELLO WORLD")]).1 := by
  decide

/-- A serially executed `translate` returns the per-item specification of
its input and preserves cache consistency, for a trim-respecting oracle. -/
lemma translateS_spec (oracle : String → Option String)
    (hF : factorsThroughTrim oracle) (st : TransState) (v : String)
    (hst : cacheConsistent oracle st.cache) :
    (translateS oracle true st v).1 = specOfT oracle v ∧
    cacheConsistent oracle (translateS oracle true st v).2.cache := by
  by_cases hel : should_translate v
  · cases hcl : cacheLookup st.cache (pyStrip v) with
    | some u =>
        obtain ⟨t, ht1, ht2⟩ := hst _ _ hcl
        have hov : oracle v = some u := by
          rw [hF v t (by rw [ht1]), ht2]
        constructor
        · simp [translateS, hel, hcl, specOfT, hov]
        · simp only [translateS, Bool.true_and, hel, if_true, hcl]
          exact hst
    | none =>
        cases ho : oracle v with
        | some r =>
            constructor
            · simp [translateS, hel, hcl, ho, specOfT]
            · simp only [translateS, Bool.true_and, hel, if_true, hcl, ho]
              intro k u hk
              rw [cacheLookup_assocSet] at hk
              by_cases hkey : pyStrip v = k
              · rw [if_pos hkey] at hk
                cases hk
                exact ⟨v, hkey, ho⟩
              · rw [if_neg hkey] at hk
                exact hst k u hk
        | none =>
            constructor
            · simp [translateS, hel, hcl, ho, specOfT]
            · simp only [translateS, Bool.true_and, hel, if_true, hcl, ho]
              exact hst
  · constructor
    · simp [translateS, hel, specOfT]
    · simp only [translateS, Bool.true_and, hel, Bool.false_eq_true,
        if_false]
      exact hst

/-- A serial batch maps every slot to its per-item specification and
preserves cache consistency. -/
lemma seqBatchVals_spec (oracle : String → Option String)
    (hF : factorsThroughTrim oracle) :
    ∀ (vs : List String) (st : TransState),
      cacheConsistent oracle st.cache →
      (seqBatchVals oracle true st vs).1 = vs.map (specOfT oracle) ∧
      cacheConsistent oracle (seqBatchVals oracle true st vs).2.cache := by
  intro vs
  induction vs with
  | nil => intro st hst; exact ⟨rfl, hst⟩
  | cons v vs ih =>
      intro st hst
      obtain ⟨h1, h2⟩ := translateS_spec oracle hF st v hst
      obtain ⟨h3, h4⟩ := ih (translateS oracle true st v).2 h2
      constructor
      · simp only [seqBatchVals, h1, h3, List.map_cons]
      · simpa only [seqBatchVals] using h4

/-- Dict assignment at a matching head binding. -/
lemma assocSet_head_eq (k v v' : String) (rest : List (String × String)) :
    assocSet ((k, v) :: rest) k v' = (k, v') :: rest := by
  simp [assocSet]

/-- Dict assignment passes over a non-matching head binding. -/
lemma assocSet_head_ne (k0 v0 k v : String) (h : ¬k0 = k)
    (rest : List (String × String)) :
    assocSet ((k0, v0) :: rest) k v = (k0, v0) :: assocSet rest k v := by
  simp [assocSet, h]

/-- A fold of dict assignments whose keys all differ from the head key
leaves the head binding in place. -/
lemma wbFold_cons_ne :
    ∀ (pairs : List (String × String)) (k0 v0 : String)
      (rest : List (String × String)),
      (∀ p ∈ pairs, p.1 ≠ k0) →
      pairs.foldl (fun res kv => assocSet res kv.1 kv.2) ((k0, v0) :: rest) =
        (k0, v0) :: pairs.foldl (fun res kv => assocSet res kv.1 kv.2) rest := by
  intro pairs
  induction pairs with
  | nil => intro k0 v0 rest _; rfl
  | cons p ps ih =>
      intro k0 v0 rest h
      simp only [List.foldl_cons]
      rw [assocSet_head_ne k0 v0 p.1 p.2
        (fun he => h p (List.mem_cons_self p ps) he.symm) rest]
      exact ih k0 v0 (assocSet rest p.1 p.2)
        (fun q hq => h q (List.mem_cons_of_mem p hq))

/-- With duplicate-free keys, writing the translated residual values back
by key is the pointwise description of the pass. -/
lemma fr_writeback (oracle : String → Option String) :
    ∀ m : List (String × String),
      (m.map Prod.fst).Nodup →
      ((m.filter (fun kv => reviewSel kv.2)).map
          (fun kv => (kv.1, specOfT oracle kv.2))).foldl
        (fun res kv => assocSet res kv.1 kv.2) m = pointwiseReview oracle m := by
  intro m
  induction m with
  | nil => intro _; rfl
  | cons p m ih =>
      obtain ⟨k0, v0⟩ := p
      intro hnd
      have hk0 : (k0 : String) ∉ m.map Prod.fst := (List.nodup_cons.mp hnd).1
      have hnd1 : (m.map Prod.fst).Nodup := (List.nodup_cons.mp hnd).2
      have hkeys : ∀ q ∈ (m.filter (fun kv => reviewSel kv.2)).map
          (fun kv => (kv.1, specOfT oracle kv.2)), q.1 ≠ k0 := by
        intro q hq hqk
        obtain ⟨kv, hkv1, hkv2⟩ := List.mem_map.mp hq
        have : kv.1 ∈ m.map Prod.fst :=
          List.mem_map.mpr ⟨kv, (List.mem_filter.mp hkv1).1, rfl⟩
        rw [← hkv2] at hqk
        simp only at hqk
        rw [hqk] at this
        exact hk0 this
      by_cases hsel : reviewSel v0
      · simp only [List.filter_cons, hsel, if_true, List.map_cons,
          List.foldl_cons, assocSet_head_eq]
        rw [wbFold_cons_ne _ k0 (specOfT oracle v0) m hkeys, ih hnd1]
        simp [pointwiseReview, hsel]
      · simp only [List.filter_cons, hsel, Bool.false_eq_true, if_false]
        rw [wbFold_cons_ne _ k0 v0 m hkeys, ih hnd1]
        simp [pointwiseReview, hsel]

/-- When no field passes the residual scan, the pointwise pass is the
identity. -/
lemma pointwiseReview_id (oracle : String → Option String) :
    ∀ m : List (String × String),
      (∀ kv ∈ m, reviewSel kv.2 = false) → pointwiseReview oracle m = m := by
  intro m
  induction m with
  | nil => intro _; rfl
  | cons p m ih =>
      intro h
      have hp := h p (List.mem_cons_self p m)
      simp only [pointwiseReview, List.map_cons, hp, Bool.false_eq_true,
        if_false]
      have := ih (fun kv hkv => h kv (List.mem_cons_of_mem p hkv))
      simp only [pointwiseReview] at this
      rw [this]

/-- One `final_review` pass computes the pointwise description and
preserves cache consistency, for a trim-respecting oracle and
duplicate-free field keys. -/
lemma final_review_spec (oracle : String → Option String)
    (hF : factorsThroughTrim oracle) (m : List (String × String))
    (st : TransState) (hst : cacheConsistent oracle st.cache)
    (hnd : (m.map Prod.fst).Nodup) :
    (final_review oracle true st m).1 = pointwiseReview oracle m ∧
    cacheConsistent oracle (final_review oracle true st m).2.cache := by
  by_cases hrev : (m.filter (fun kv => reviewSel kv.2)).isEmpty
  · have hall : ∀ kv ∈ m, reviewSel kv.2 = false := by
      intro kv hkv
      by_cases hs : reviewSel kv.2
      · exfalso
        have : kv ∈ m.filter (fun kv => reviewSel kv.2) :=
          List.mem_filter.mpr ⟨hkv, hs⟩
        rw [List.isEmpty_iff.mp hrev] at this
        cases this
      · simpa using hs
    constructor
    · simp only [final_review, if_neg (by simp : ¬(true = false)), hrev,
        if_true]
      exact (pointwiseReview_id oracle m hall).symm
    · simp only [final_review, if_neg (by simp : ¬(true = false)), hrev,
        if_true]
      exact hst
  · obtain ⟨hb1, hb2⟩ := seqBatchVals_spec oracle hF
      ((m.filter (fun kv => reviewSel kv.2)).map Prod.snd) st hst
    constructor
    · simp only [final_review, if_neg (by simp : ¬(true = false)), hrev,
        Bool.false_eq_true, if_false, hb1]
      rw [List.map_map, List.zip_map']
      exact fr_writeback oracle m hnd
    · simp only [final_review, if_neg (by simp : ¬(true = false)), hrev,
        Bool.false_eq_true, if_false]
      exact hb2

/-- The pointwise pass is idempotent when successful upstream answers are
no longer eligible. -/
lemma pointwiseReview_idem (oracle : String → Option String)
    (hC : ∀ t r, oracle t = some r → should_translate r = false)
    (m : List (String × String)) :
    pointwiseReview oracle (pointwiseReview oracle m) =
      pointwiseReview oracle m := by
  unfold pointwiseReview
  rw [List.map_map]
  have hfun : ((fun kv : String × String =>
        (kv.1, if reviewSel kv.2 then specOfT oracle kv.2 else kv.2)) ∘
      (fun kv : String × String =>
        (kv.1, if reviewSel kv.2 then specOfT oracle kv.2 else kv.2))) =
      (fun kv : String × String =>
        (kv.1, if reviewSel kv.2 then specOfT oracle kv.2 else kv.2)) := by
    funext kv
    obtain ⟨k, v⟩ := kv
    simp only [Function.comp]
    by_cases hsel : reviewSel v
    · have hel : should_translate v = true := by
        have := hsel
        simp only [reviewSel, Bool.and_eq_true] at this
        exact this.2
      simp only [hsel, if_true]
      cases ho : oracle v with
      | some r =>
          have hr : should_translate r = false := hC v r ho
          have hsr : reviewSel r = false := by
            simp [reviewSel, hr]
          simp [specOfT, hel, ho, hsr]
      | none =>
          have hspec : specOfT oracle v = v := by
            simp [specOfT, hel, ho]
          simp [hspec, hsel]
    · simp [hsel]
  rw [hfun]

/-- The pointwise pass preserves the key list. -/
lemma pointwiseReview_keys (oracle : String → Option String)
    (m : List (String × String)) :
    (pointwiseReview oracle m).map Prod.fst = m.map Prod.fst := by
  simp [pointwiseReview, List.map_map, Function.comp]

/-- Claim C9, corrected: `final_review` is idempotent provided the
upstream depends only on the trimmed text, its successful answers are no
longer eligible for translation (e.g. they are in the target script), the
cache records upstream successes, and the field keys are duplicate-free:
the second application returns the first application's map unchanged.  In
particular, a map with no residual-eligible field is returned unchanged.
An upstream answer that stays eligible breaks idempotence (see the
counterexample). -/
theorem C9_idempotent (oracle : String → Option String)
    (hF : factorsThroughTrim oracle)
    (hC : ∀ t r, oracle t = some r → should_translate r = false)
    (m : List (String × String)) (st : TransState)
    (hst : cacheConsistent oracle st.cache)
    (hnd : (m.map Prod.fst).Nodup) :
    (final_review oracle true (final_review oracle true st m).2
        (final_review oracle true st m).1).1 =
      (final_review oracle true st m).1 := by
  obtain ⟨h1, h2⟩ := final_review_spec oracle hF m st hst hnd
  have hnd2 : ((final_review oracle true st m).1.map Prod.fst).Nodup := by
    rw [h1, pointwiseReview_keys]
    exact hnd
  obtain ⟨h3, _⟩ := final_review_spec oracle hF
    (final_review oracle true st m).1 (final_review oracle true st m).2
    h2 hnd2
  rw [h3, h1, pointwiseReview_idem oracle hC]

/-- Witness for C9 at a concrete well-behaved oracle and field map. -/
theorem C9_witness :
    (final_review cleanOracle true
        (final_review cleanOracle true ⟨[], []⟩ [("f1", "HELLO WORLD")]).2
        (final_review cleanOracle true ⟨[], []⟩ [("f1", "HELLO WORLD")]).1).1 =
      (final_review cleanOracle true ⟨[], []⟩ [("f1", "HELLO WORLD")]).1 := by
  apply C9_idempotent cleanOracle
  · intro a b h
    simp only [cleanOracle, h]
  · intro t r h
    simp only [cleanOracle] at h
    by_cases hp : pyStrip t = "HELLO WORLD"
    · rw [if_pos hp] at h
      cases h
      decide
    · rw [if_neg hp] at h
      cases h
  · intro k v hk
    simp [cacheLookup] at hk
  · decide

/-! ## Claim C7 — row shading detection -/

/-- Claim C7 is right about the code's intent but the code is wrong: for
each row `r` the source reads the cell at flat index `r * col_count` of
pdfplumber's cell list, which is the row's leading cell only when every
row contributes exactly `col_count` cells.  In `cexCells` (a 2×2 table
whose first row is one merged cell, so the flat list has 3 entries), the
leading cell of row 1 is `cexCells[1] = (0,10,50,20)`, and the retained
gray rectangle contains it with tolerance — the claim says row 1 is
shaded — yet the code tests `cexCells[2]` (the second cell of row 1) and
reports both rows unshaded. -/
theorem C7_divergence :
    analyze_row_backgrounds cexCells [["m", ""], ["p", "q"]] 2
        (extract_filled_rects cexRects) = [false, false] ∧
    extract_filled_rects cexRects = [⟨-1, 9, 51, 21, 9 / 10⟩] ∧
    cexCells[1]? = some ⟨0, 10, 50, 20⟩ ∧
    containedWithTol ⟨-1, 9, 51, 21, 9 / 10⟩ ⟨0, 10, 50, 20⟩ = true := by
  refine ⟨?_, ?_, ?_, ?_⟩
  · norm_num [analyze_row_backgrounds, cexCells, cexRects, extract_filled_rects,
      containedWithTol, List.filterMap, List.range_succ, List.any_cons]
  · norm_num [extract_filled_rects, cexRects, List.filterMap]
  · norm_num [cexCells]
  · norm_num [containedWithTol]

/-! ## Claim C1 — shadow cells -/

/-- Cell updates keep the grid dimensions. -/
lemma updateCell_nrows (T : DocTable) (r c : Nat) (f : DCell → DCell) :
    (updateCell T r c f).nrows = T.nrows := rfl

lemma updateCell_ncols (T : DocTable) (r c : Nat) (f : DCell → DCell) :
    (updateCell T r c f).ncols = T.ncols := rfl

/-- Row fill keeps the grid dimensions. -/
lemma fillRow_dims (bg : Bool) (r : Nat) :
    ∀ (row : List String) (c : Nat) (T : DocTable),
      (fillRow bg r row c T).nrows = T.nrows ∧
      (fillRow bg r row c T).ncols = T.ncols := by
  intro row
  induction row with
  | nil => intro c T; exact ⟨rfl, rfl⟩
  | cons txt rest ih =>
      intro c T
      simp only [fillRow]
      split
      · exact ⟨(ih (c + 1) _).1, (ih (c + 1) _).2⟩
      · exact ⟨(ih (c + 1) _).1, (ih (c + 1) _).2⟩

/-- Table fill keeps the grid dimensions. -/
lemma fillTable_dims :
    ∀ (rows : List (List String)) (bgs : List Bool) (r : Nat) (T : DocTable),
      (fillTable rows bgs r T).nrows = T.nrows ∧
      (fillTable rows bgs r T).ncols = T.ncols := by
  intro rows
  induction rows with
  | nil => intro bgs r T; exact ⟨rfl, rfl⟩
  | cons row rest ih =>
      intro bgs r T
      simp only [fillTable]
      split
      · constructor
        · rw [(ih bgs (r + 1) _).1, (fillRow_dims _ r row 0 T).1]
        · rw [(ih bgs (r + 1) _).2, (fillRow_dims _ r row 0 T).2]
      · exact ⟨(ih bgs (r + 1) T).1, (ih bgs (r + 1) T).2⟩

/-- A merge iteration keeps the grid dimensions. -/
lemma mergeStep_dims (mc : List (Nat × Nat)) (m : MergeSpan) (T : DocTable)
    (dr : Nat) :
    (mergeStep mc m T dr).nrows = T.nrows ∧
    (mergeStep mc m T dr).ncols = T.ncols := by
  constructor
  · unfold mergeStep
    split
    · rfl
    · split
      · rfl
      · rfl
  · unfold mergeStep
    split
    · rfl
    · split
      · rfl
      · rfl

/-- A span's whole loop keeps the grid dimensions. -/
lemma foldl_mergeStep_dims (mc : List (Nat × Nat)) (m : MergeSpan) :
    ∀ (l : List Nat) (T : DocTable),
      (l.foldl (mergeStep mc m) T).nrows = T.nrows ∧
      (l.foldl (mergeStep mc m) T).ncols = T.ncols := by
  intro l
  induction l with
  | nil => intro T; exact ⟨rfl, rfl⟩
  | cons a l ih =>
      intro T
      simp only [List.foldl_cons]
      constructor
      · rw [(ih _).1, (mergeStep_dims mc m T a).1]
      · rw [(ih _).2, (mergeStep_dims mc m T a).2]

/-- The whole merge pass keeps the grid dimensions. -/
lemma apply_merge_dims (mc : List (Nat × Nat)) :
    ∀ (ms : List MergeSpan) (T : DocTable),
      (apply_merge_to_table T ms mc).nrows = T.nrows ∧
      (apply_merge_to_table T ms mc).ncols = T.ncols := by
  intro ms
  induction ms with
  | nil => intro T; exact ⟨rfl, rfl⟩
  | cons m ms ih =>
      intro T
      simp only [apply_merge_to_table, List.foldl_cons]
      have h1 := ih (applyMergeOne mc T m)
      simp only [apply_merge_to_table] at h1
      constructor
      · rw [h1.1]
        exact (foldl_mergeStep_dims mc m _ T).1
      · rw [h1.2]
        exact (foldl_mergeStep_dims mc m _ T).2

/-- A merge iteration only ever clears a cell's text, never writes new
text. -/
lemma mergeStep_text (mc : List (Nat × Nat)) (m : MergeSpan) (T : DocTable)
    (dr i j : Nat) :
    ((mergeStep mc m T dr).cell i j).text = (T.cell i j).text ∨
    ((mergeStep mc m T dr).cell i j).text = "" := by
  unfold mergeStep
  split
  · left; rfl
  · split
    · left; rfl
    · by_cases hi : i = m.row + dr
      · by_cases hj : j = m.col
        · subst hi; subst hj
          by_cases hmem : memPos (m.row + dr, m.col) mc = true
          · right
            simp only [updateCell, if_pos rfl, hmem, if_true]
            split_ifs <;> rfl
          · left
            simp only [updateCell, if_pos rfl, hmem, Bool.false_eq_true,
              if_false]
            split_ifs <;> rfl
        · left
          simp [updateCell, hj]
      · left
        simp [updateCell, hi]

/-- A merge iteration leaves cells off its visited position untouched. -/
lemma mergeStep_other (mc : List (Nat × Nat)) (m : MergeSpan) (T : DocTable)
    (dr i j : Nat) (h : ¬(i = m.row + dr ∧ j = m.col)) :
    (mergeStep mc m T dr).cell i j = T.cell i j := by
  unfold mergeStep
  split
  · rfl
  · split
    · rfl
    · by_cases hi : i = m.row + dr
      · have hj : ¬j = m.col := fun hj => h ⟨hi, hj⟩
        simp [updateCell, hi, hj]
      · simp [updateCell, hi]

/-- The visited iteration of a covered row clears the cell and sets the
merge attributes. -/
lemma mergeStep_visits (mc : List (Nat × Nat)) (m : MergeSpan) (T : DocTable)
    (dr : Nat) (hrow : m.row + dr < T.nrows) (hcol : m.col < T.ncols) :
    (memPos (m.row + dr, m.col) mc = true →
      ((mergeStep mc m T dr).cell (m.row + dr) m.col).text = "") ∧
    (1 < m.colspan →
      ((mergeStep mc m T dr).cell (m.row + dr) m.col).gridSpan =
        some m.colspan) ∧
    (1 < m.rowspan →
      ((mergeStep mc m T dr).cell (m.row + dr) m.col).vMerge =
        some (if dr = 0 then VMergeV.restart else VMergeV.cont)) := by
  unfold mergeStep
  rw [if_neg (by omega), if_neg (by omega)]
  simp only [updateCell, if_pos rfl]
  refine ⟨?_, ?_, ?_⟩
  · intro hmem
    simp only [hmem, if_true]
    split_ifs <;> rfl
  · intro hcs
    by_cases hmem : memPos (m.row + dr, m.col) mc = true
    · simp only [hmem, if_true, hcs]
      split_ifs <;> rfl
    · simp only [hmem, Bool.false_eq_true, if_false, hcs]
      split_ifs <;> rfl
  · intro hrs
    by_cases hmem : memPos (m.row + dr, m.col) mc = true
    · simp only [hmem, if_true, hrs]
    · simp only [hmem, Bool.false_eq_true, if_false, if_true, hrs]

/-- Empty text at a position survives a span's whole loop. -/
lemma foldl_mergeStep_keeps_empty (mc : List (Nat × Nat)) (m : MergeSpan)
    (i j : Nat) :
    ∀ (l : List Nat) (T : DocTable), (T.cell i j).text = "" →
      ((l.foldl (mergeStep mc m) T).cell i j).text = "" := by
  intro l
  induction l with
  | nil => intro T h; exact h
  | cons a l ih =>
      intro T h
      simp only [List.foldl_cons]
      apply ih
      rcases mergeStep_text mc m T a i j with h2 | h2
      · rw [h2]; exact h
      · exact h2

/-- Empty text at a position survives the whole merge pass. -/
lemma apply_merge_keeps_empty (mc : List (Nat × Nat)) (i j : Nat) :
    ∀ (ms : List MergeSpan) (T : DocTable), (T.cell i j).text = "" →
      ((apply_merge_to_table T ms mc).cell i j).text = "" := by
  intro ms
  induction ms with
  | nil => intro T h; exact h
  | cons m ms ih =>
      intro T h
      simp only [apply_merge_to_table, List.foldl_cons]
      have h2 : ((applyMergeOne mc T m).cell i j).text = "" :=
        foldl_mergeStep_keeps_empty mc m i j _ T h
      have h3 := ih (applyMergeOne mc T m) h2
      simpa only [apply_merge_to_table] using h3

/-- A span's loop clears the visited cell of each covered continuation
row. -/
lemma foldl_mergeStep_clears (mc : List (Nat × Nat)) (m : MergeSpan)
    (dr : Nat) (hmem : memPos (m.row + dr, m.col) mc = true) :
    ∀ (l : List Nat) (T : DocTable),
      dr ∈ l → m.row + dr < T.nrows → m.col < T.ncols →
      ((l.foldl (mergeStep mc m) T).cell (m.row + dr) m.col).text = "" := by
  intro l
  induction l with
  | nil => intro T h; cases h
  | cons a l ih =>
      intro T hin hrow hcol
      simp only [List.foldl_cons]
      by_cases ha : a = dr
      · subst ha
        apply foldl_mergeStep_keeps_empty
        exact (mergeStep_visits mc m T a hrow hcol).1 hmem
      · have hin2 : dr ∈ l := by
          rcases List.mem_cons.mp hin with h | h
          · exact absurd h.symm ha
          · exact h
        apply ih _ hin2
        · rw [(mergeStep_dims mc m T a).1]; exact hrow
        · rw [(mergeStep_dims mc m T a).2]; exact hcol

/-- Membership in the covered-cell set. -/
lemma memPos_iff (p : Nat × Nat) :
    ∀ l : List (Nat × Nat), memPos p l = true ↔ p ∈ l := by
  intro l
  induction l with
  | nil => simp [memPos]
  | cons q l ih =>
      by_cases h : p = q <;> simp [memPos, h, ih]

/-- Every covered non-origin position of a listed span is in the
`merged_cells` set. -/
lemma mergedCells_mem (ms : List MergeSpan) (m : MergeSpan) (hm : m ∈ ms)
    (dr dc : Nat) (hdr : dr < m.rowspan) (hdc : dc < m.colspan)
    (h0 : 0 < dr ∨ 0 < dc) :
    (m.row + dr, m.col + dc) ∈ mergedCellsList ms := by
  unfold mergedCellsList
  rw [List.mem_flatMap]
  refine ⟨m, hm, ?_⟩
  rw [List.mem_flatMap]
  refine ⟨dr, List.mem_range.mpr hdr, ?_⟩
  rw [List.mem_filterMap]
  refine ⟨dc, List.mem_range.mpr hdc, ?_⟩
  rw [if_pos h0]

/-- Claim C1, corrected: the merge pass clears exactly the vertical
continuation cells in each span's origin column: for every listed span
and every covered continuation row inside the created grid, the emitted
cell at the span's starting column is empty — regardless of what text the
source rows put there.  (Shadow cells in the other columns of a span are
not visited by `_apply_merge_to_table` and keep the source text, see the
counterexample.) -/
theorem C1_origin_column_cleared (rows : List (List String))
    (col_count : Nat) (ms : List MergeSpan) (bgs : List Bool)
    (m : MergeSpan) (hm : m ∈ ms) (dr : Nat) (hdr0 : 0 < dr)
    (hdr : dr < m.rowspan) (hcs : 0 < m.colspan)
    (hrow : m.row + dr < rows.length) (hcol : m.col < col_count) :
    ((insert_one_table rows col_count ms bgs).cell (m.row + dr) m.col).text =
      "" := by
  obtain ⟨pre, post, rfl⟩ := List.append_of_mem hm
  unfold insert_one_table
  have hmem : memPos (m.row + dr, m.col) (mergedCellsList (pre ++ m :: post)) =
      true := by
    rw [memPos_iff]
    have := mergedCells_mem (pre ++ m :: post) m hm dr 0 hdr hcs (Or.inl hdr0)
    simpa using this
  have hdimsT1 := fillTable_dims rows bgs 0
    ⟨rows.length, col_count, fun _ _ => DCell.empty⟩
  unfold apply_merge_to_table
  rw [List.foldl_append, List.foldl_cons]
  have hdimspre := apply_merge_dims (mergedCellsList (pre ++ m :: post)) pre
    (fillTable rows bgs 0 ⟨rows.length, col_count, fun _ _ => DCell.empty⟩)
  simp only [apply_merge_to_table] at hdimspre
  have hclear : ((applyMergeOne (mergedCellsList (pre ++ m :: post))
      (List.foldl (applyMergeOne (mergedCellsList (pre ++ m :: post)))
        (fillTable rows bgs 0 ⟨rows.length, col_count, fun _ _ => DCell.empty⟩)
        pre) m).cell (m.row + dr) m.col).text = "" := by
    have hr2 : m.row + dr <
        (List.foldl (applyMergeOne (mergedCellsList (pre ++ m :: post)))
          (fillTable rows bgs 0
            ⟨rows.length, col_count, fun _ _ => DCell.empty⟩) pre).nrows := by
      rw [hdimspre.1, hdimsT1.1]
      exact hrow
    have hc2 : m.col <
        (List.foldl (applyMergeOne (mergedCellsList (pre ++ m :: post)))
          (fillTable rows bgs 0
            ⟨rows.length, col_count, fun _ _ => DCell.empty⟩) pre).ncols := by
      rw [hdimspre.2, hdimsT1.2]
      exact hcol
    exact foldl_mergeStep_clears _ m dr hmem (List.range m.rowspan) _
      (List.mem_range.mpr hdr) hr2 hc2
  have := apply_merge_keeps_empty (mergedCellsList (pre ++ m :: post))
    (m.row + dr) m.col post _ hclear
  simpa only [apply_merge_to_table] using this

/-- Witness for C1 at the spec's synthetic merge example: the continuation
cell (1,0) of the 3-column, 2-row span is emitted empty. -/
theorem C1_witness :
    ((insert_one_table synthRows 4 [⟨0, 0, 3, 2⟩] []).cell 1 0).text = "" := by
  have h := C1_origin_column_cleared synthRows 4 [⟨0, 0, 3, 2⟩] []
    ⟨0, 0, 3, 2⟩ (by simp) 1 (by decide) (by decide) (by decide)
    (by decide) (by decide)
  simpa using h

/-- Claim C1 fails as stated: a horizontal shadow cell keeps stray source
text.  With a span `{row 0, col 0, colspan 2, rowspan 1}` and source row
`["A", "stray"]`, the materializer fills cell (0,1) with `"stray"` and
`_apply_merge_to_table` never visits it (it only visits the starting
column of each covered row), so the emitted cell is not empty. -/
theorem C1_counterexample :
    ((insert_one_table [["A", "stray"], ["x", "y"]] 2
        [⟨0, 0, 2, 1⟩] []).cell 0 1).text = "stray" ∧
    ("stray" : String) ≠ "" :=
  ⟨by decide, by decide⟩

/-! ## Claim C6 — merge marker encoding -/

/-- Later iterations of a span's loop (and other spans' loops) leave a
cell untouched when they never visit its position. -/
lemma foldl_mergeStep_other (mc : List (Nat × Nat)) (m' : MergeSpan)
    (i j : Nat) :
    ∀ (l : List Nat) (T : DocTable),
      (∀ a ∈ l, ¬(i = m'.row + a ∧ j = m'.col)) →
      (l.foldl (mergeStep mc m') T).cell i j = T.cell i j := by
  intro l
  induction l with
  | nil => intro T _; rfl
  | cons a l ih =>
      intro T h
      simp only [List.foldl_cons]
      rw [ih _ (fun b hb => h b (List.mem_cons_of_mem a hb)),
        mergeStep_other mc m' T a i j (h a (List.mem_cons_self a l))]

/-- Running a span's loop establishes the merge attributes on the visited
cell of row `m.row + dr` as soon as iteration `dr` is in the loop (or they
were already in place). -/
lemma foldl_mergeStep_attrs (mc : List (Nat × Nat)) (m : MergeSpan)
    (dr : Nat) :
    ∀ (l : List Nat) (T : DocTable),
      m.row + dr < T.nrows → m.col < T.ncols →
      (dr ∈ l ∨
        ((1 < m.colspan →
            (T.cell (m.row + dr) m.col).gridSpan = some m.colspan) ∧
         (1 < m.rowspan →
            (T.cell (m.row + dr) m.col).vMerge =
              some (if dr = 0 then VMergeV.restart else VMergeV.cont)))) →
      (1 < m.colspan →
        ((l.foldl (mergeStep mc m) T).cell (m.row + dr) m.col).gridSpan =
          some m.colspan) ∧
      (1 < m.rowspan →
        ((l.foldl (mergeStep mc m) T).cell (m.row + dr) m.col).vMerge =
          some (if dr = 0 then VMergeV.restart else VMergeV.cont)) := by
  intro l
  induction l with
  | nil =>
      intro T hr hc h
      rcases h with h | h
      · cases h
      · exact h
  | cons a l ih =>
      intro T hr hc h
      simp only [List.foldl_cons]
      have hdims := mergeStep_dims mc m T a
      by_cases ha : a = dr
      · subst ha
        apply ih
        · rw [hdims.1]; exact hr
        · rw [hdims.2]; exact hc
        · right
          have hv := mergeStep_visits mc m T a hr hc
          exact ⟨hv.2.1, hv.2.2⟩
      · rcases h with h | h
        · rcases List.mem_cons.mp h with h2 | h2
          · exact absurd h2.symm ha
          · apply ih
            · rw [hdims.1]; exact hr
            · rw [hdims.2]; exact hc
            · exact Or.inl h2
        · have hcell := mergeStep_other mc m T a (m.row + dr) m.col
            (fun hh => ha (by omega))
          apply ih
          · rw [hdims.1]; exact hr
          · rw [hdims.2]; exact hc
          · right
            rw [hcell]
            exact h

/-- Disjoint spans never cover a common cell. -/
lemma spansDisjoint_not_both (m1 m2 : MergeSpan) (h : spansDisjoint m1 m2)
    (r c : Nat) : ¬(covers m1 r c ∧ covers m2 r c) := by
  rintro ⟨h1, h2⟩
  unfold covers at h1 h2
  unfold spansDisjoint at h
  omega

/-- The merge pass over spans that never visit position `(i, j)` leaves
that cell untouched. -/
lemma apply_merge_other (mc : List (Nat × Nat)) (i j : Nat) :
    ∀ (ms : List MergeSpan) (T : DocTable),
      (∀ m' ∈ ms, ∀ a, a < m'.rowspan → ¬(i = m'.row + a ∧ j = m'.col)) →
      (apply_merge_to_table T ms mc).cell i j = T.cell i j := by
  intro ms
  induction ms with
  | nil => intro T _; rfl
  | cons m' ms ih =>
      intro T h
      simp only [apply_merge_to_table, List.foldl_cons]
      have h1 : (applyMergeOne mc T m').cell i j = T.cell i j := by
        apply foldl_mergeStep_other
        intro a ha
        exact h m' (List.mem_cons_self m' ms) a (List.mem_range.mp ha)
      have h2 := ih (applyMergeOne mc T m')
        (fun q hq a ha => h q (List.mem_cons_of_mem m' hq) a ha)
      simp only [apply_merge_to_table] at h2
      rw [h2, h1]

/-- Claim C6: for pairwise-disjoint spans of positive extents, the
materializer encodes a vertical merge as `vMerge = restart` on the span's
origin-row cell and the valueless continuation marker on the same column's
cell of every subsequent covered row (never a uniform flag), and a
horizontal merge as `gridSpan = colSpan` on the starting cell of every
covered row. -/
theorem C6_merge_markers (rows : List (List String)) (col_count : Nat)
    (ms : List MergeSpan) (bgs : List Bool)
    (hpos : ∀ m' ∈ ms, 0 < m'.colspan ∧ 0 < m'.rowspan)
    (hdisj : ms.Pairwise spansDisjoint)
    (m : MergeSpan) (hm : m ∈ ms) (dr : Nat) (hdr : dr < m.rowspan)
    (hrow : m.row + dr < rows.length) (hcol : m.col < col_count) :
    (1 < m.colspan →
      ((insert_one_table rows col_count ms bgs).cell (m.row + dr) m.col).gridSpan =
        some m.colspan) ∧
    (1 < m.rowspan →
      ((insert_one_table rows col_count ms bgs).cell (m.row + dr) m.col).vMerge =
        some (if dr = 0 then VMergeV.restart else VMergeV.cont)) := by
  obtain ⟨pre, post, rfl⟩ := List.append_of_mem hm
  have hdisjpost : ∀ m' ∈ post, spansDisjoint m m' := by
    have h1 := (List.pairwise_append.mp hdisj).2.1
    exact (List.pairwise_cons.mp h1).1
  unfold insert_one_table
  have hdimsT1 := fillTable_dims rows bgs 0
    ⟨rows.length, col_count, fun _ _ => DCell.empty⟩
  unfold apply_merge_to_table
  rw [List.foldl_append, List.foldl_cons]
  have hdimspre := apply_merge_dims (mergedCellsList (pre ++ m :: post)) pre
    (fillTable rows bgs 0 ⟨rows.length, col_count, fun _ _ => DCell.empty⟩)
  simp only [apply_merge_to_table] at hdimspre
  have hr2 : m.row + dr <
      (List.foldl (applyMergeOne (mergedCellsList (pre ++ m :: post)))
        (fillTable rows bgs 0
          ⟨rows.length, col_count, fun _ _ => DCell.empty⟩) pre).nrows := by
    rw [hdimspre.1, hdimsT1.1]
    exact hrow
  have hc2 : m.col <
      (List.foldl (applyMergeOne (mergedCellsList (pre ++ m :: post)))
        (fillTable rows bgs 0
          ⟨rows.length, col_count, fun _ _ => DCell.empty⟩) pre).ncols := by
    rw [hdimspre.2, hdimsT1.2]
    exact hcol
  have hattrs := foldl_mergeStep_attrs (mergedCellsList (pre ++ m :: post)) m
    dr (List.range m.rowspan) _ hr2 hc2 (Or.inl (List.mem_range.mpr hdr))
  have hpres : (apply_merge_to_table
      (applyMergeOne (mergedCellsList (pre ++ m :: post))
        (List.foldl (applyMergeOne (mergedCellsList (pre ++ m :: post)))
          (fillTable rows bgs 0
            ⟨rows.length, col_count, fun _ _ => DCell.empty⟩) pre) m)
      post (mergedCellsList (pre ++ m :: post))).cell (m.row + dr) m.col =
      (applyMergeOne (mergedCellsList (pre ++ m :: post))
        (List.foldl (applyMergeOne (mergedCellsList (pre ++ m :: post)))
          (fillTable rows bgs 0
            ⟨rows.length, col_count, fun _ _ => DCell.empty⟩) pre) m).cell
        (m.row + dr) m.col := by
    apply apply_merge_other
    intro m' hm' a ha hpoint
    have hmm' : m ∈ pre ++ m :: post := hm
    have hcov1 : covers m (m.row + dr) m.col := by
      unfold covers
      have := hpos m hmm'
      omega
    have hcov2 : covers m' (m.row + dr) m.col := by
      unfold covers
      have := hpos m' (by simp [hm'])
      omega
    exact spansDisjoint_not_both m m' (hdisjpost m' hm') (m.row + dr) m.col
      ⟨hcov1, hcov2⟩
  have hfinal := hpres
  simp only [apply_merge_to_table] at hfinal
  rw [hfinal]
  exact hattrs

/-- Witness for C6 at the spec's synthetic merge example: the span's
origin cell gets `vMerge = restart`, the continuation row's cell gets the
valueless continuation marker, and both covered rows carry
`gridSpan = 3`. -/
theorem C6_witness :
    ((insert_one_table synthRows 4 [⟨0, 0, 3, 2⟩] []).cell 1 0).vMerge =
        some VMergeV.cont ∧
    ((insert_one_table synthRows 4 [⟨0, 0, 3, 2⟩] []).cell 1 0).gridSpan =
        some 3 := by
  have h := C6_merge_markers synthRows 4 [⟨0, 0, 3, 2⟩] []
    (by decide) (by simp) ⟨0, 0, 3, 2⟩ (by simp) 1 (by decide)
    (by decide) (by decide)
  constructor
  · have h2 := h.2 (by decide)
    simpa using h2
  · have h2 := h.1 (by decide)
    simpa using h2

/-! ## Claim C8 — merge inference -/

/-- Claim C8: every span the Merge Inferencer emits has colspan > 1 or
rowspan > 1 and an origin row inside the extracted rows; fewer than 2
distinct rounded column edges or row edges yields the empty merge set; and
the synthetic table with one cell spanning 3 columns and 2 rows at origin
(0,0) yields exactly `{row 0, col 0, colspan 3, rowspan 2}`. -/
theorem C8_merge_inference :
    (∀ (cells : List Quad) (rows : List (List String)) (col_count : Nat),
      ∀ m ∈ analyze_merged_cells cells rows col_count,
        (1 < m.colspan ∨ 1 < m.rowspan) ∧ m.row < rows.length) ∧
    (∀ (cells : List Quad) (rows : List (List String)) (col_count : Nat),
      (xEdges cells).length < 2 ∨ (yEdges cells).length < 2 →
      analyze_merged_cells cells rows col_count = []) ∧
    analyze_merged_cells synthCells synthRows 4 = [⟨0, 0, 3, 2⟩] := by
  refine ⟨?_, ?_, ?_⟩
  · intro cells rows col_count m hm
    unfold analyze_merged_cells at hm
    split at hm
    · cases hm
    · split at hm
      · cases hm
      · dsimp only at hm
        split at hm
        · cases hm
        · obtain ⟨c, _, hf⟩ := List.mem_filterMap.mp hm
          split at hf
          · split at hf
            · split at hf
              · rename_i hspan hrow2
                cases hf
                refine ⟨?_, hrow2⟩
                dsimp only
                rcases hspan with h | h
                · left; omega
                · right; omega
              · cases hf
            · cases hf
          · cases hf
  · intro cells rows col_count h
    unfold analyze_merged_cells
    split
    · rfl
    · split
      · rfl
      · dsimp only
        split
        · rfl
        · rename_i hlen
          exfalso
          rcases h with h | h <;> simp [h] at hlen
  · norm_num [analyze_merged_cells, synthCells, synthRows, xEdges, yEdges,
      dedupSort, sortedInsert, pyRound, List.foldr, List.filterMap, idxOf]
    exact ⟨rfl, rfl⟩

/-- Witness for C8 at the synthetic table's emitted span. -/
theorem C8_witness :
    (1 < (MergeSpan.mk 0 0 3 2).colspan ∨ 1 < (MergeSpan.mk 0 0 3 2).rowspan) ∧
    (MergeSpan.mk 0 0 3 2).row < synthRows.length := by
  apply C8_merge_inference.1 synthCells synthRows 4
  rw [C8_merge_inference.2.2]
  exact List.mem_singleton.mpr rfl

end WordTranslation
